import Mathlib

/-!
Verification of the cache subsystem of EstruturaIAGen
(`src/app/cache/cache_manager.py` and `src/app/cache/decorators.py`).

The Python `CacheManager` keeps its entries in an `OrderedDict`; we embed it
as an association list whose head is the *oldest* (least-recently-touched)
binding and whose last element is the newest, which is exactly the iteration
order of the `OrderedDict`.  Time (`time.time()`) is threaded through every
operation as an explicit rational argument.  The optional Redis mirror is
embedded by passing, per call, the outcome the remote client would have
produced; exceptions raised by the remote client are outcome constructors,
mirroring the `try`/`except` blocks of the source.  `set` can genuinely raise
(`next(iter(...))` on an empty store raises `StopIteration`), so it returns
`Except`.
-/

set_option linter.unusedSectionVars false

namespace EstruturaIAGen

/-- One entry of the local store: the dict
`{"value": ..., "expires_at": ..., "created_at": ...}` built in
`CacheManager.set`. -/
structure Entry (α : Type) where
  value : α
  expires_at : ℚ
  created_at : ℚ
deriving DecidableEq, Repr

/-- The mutable state of a `CacheManager` (redis client handled separately,
per-call; the `stats` dict is flattened into four counters). -/
structure CacheState (K α : Type) where
  max_size : ℤ
  default_ttl : ℚ
  /-- the `OrderedDict`, head = oldest, last = most recently touched -/
  cache : List (K × Entry α)
  hits : ℕ
  misses : ℕ
  evictions : ℕ
  total_requests : ℕ
deriving DecidableEq, Repr

/-- Exceptions the embedded code can raise. -/
inductive PyErr
  | stopIteration
deriving DecidableEq, Repr

/-- Outcome of the remote-mirror block inside `CacheManager.get`:
no client configured, the read raised, the read returned a falsy value,
a truthy value that `json.loads` decoded to `v`, or a truthy value on
which `json.loads` raised. -/
inductive RemoteGetOutcome (α : Type)
  | noClient
  | raised
  | falsy
  | found (v : α)
  | badJson
deriving DecidableEq, Repr

/-- Outcome of a remote-mirror write/delete/flush (always caught). -/
inductive RemoteWriteOutcome
  | noClient
  | ok
  | raised
deriving DecidableEq, Repr

variable {K α : Type} [DecidableEq K]

/-- Keys of the store, in recency order (oldest first). -/
def keysOf (c : List (K × Entry α)) : List K :=
  c.map Prod.fst

/-- Dictionary lookup `self.cache[key]` / `key in self.cache`. -/
def lookup (k : K) (c : List (K × Entry α)) : Option (Entry α) :=
  (c.find? (fun p => p.1 = k)).map Prod.snd

/-- `del self.cache[key]` (keys are unique in an `OrderedDict`, so deleting
the single binding is filtering every binding of that key). -/
def removeKey (k : K) (c : List (K × Entry α)) : List (K × Entry α) :=
  c.filter (fun p => ¬ (p.1 = k))

/-- `self.cache.move_to_end(key)`: the found entry is moved to the
most-recently-used end. -/
def moveToEnd (k : K) (c : List (K × Entry α)) : List (K × Entry α) :=
  match c.find? (fun p => p.1 = k) with
  | some p => removeKey k c ++ [p]
  | none => c

/-- Local part of `CacheManager.get` (lines 85-103): runs after the
`total_requests` bump and the remote block.  Returns the Python return
value and the new state. -/
def localGet (now : ℚ) (k : K) (s : CacheState K α) :
    Option α × CacheState K α :=
  match lookup k s.cache with
  | some e =>
      if e.expires_at > now then
        (some e.value,
         { s with hits := s.hits + 1, cache := moveToEnd k s.cache })
      else
        (none,
         { s with misses := s.misses + 1, cache := removeKey k s.cache })
  | none => (none, { s with misses := s.misses + 1 })

/-- `CacheManager.get` (lines 61-103).  `r` is the outcome of the remote
block; on `found` the remote value is returned without touching the local
store, on `badJson` the hit counter has already been bumped when
`json.loads` raises, and the caught exception falls through to the local
path. -/
def get (r : RemoteGetOutcome α) (now : ℚ) (k : K) (s : CacheState K α) :
    Option α × CacheState K α :=
  let s₀ := { s with total_requests := s.total_requests + 1 }
  match r with
  | .found v => (some v, { s₀ with hits := s₀.hits + 1 })
  | .badJson => localGet now k { s₀ with hits := s₀.hits + 1 }
  | .noClient => localGet now k s₀
  | .raised => localGet now k s₀
  | .falsy => localGet now k s₀

/-- Python `ttl = ttl or self.default_ttl`: both `None` and `0` are falsy. -/
def effTtl (ttl? : Option ℚ) (dflt : ℚ) : ℚ :=
  match ttl? with
  | some t => if t = 0 then dflt else t
  | none => dflt

/-- Lines 131-133 of `set`: `if key in self.cache: del self.cache[key]`. -/
def removeExisting (k : K) (c : List (K × Entry α)) : List (K × Entry α) :=
  if (lookup k c).isSome then removeKey k c else c

/-- Lines 135-141 of `set`: `if len(self.cache) >= self.max_size:` evict
`next(iter(self.cache))`.  On an empty store `next` raises `StopIteration`.
Returns the store after the check together with the number of evictions
performed (0 or 1). -/
def evictIfFull (max_size : ℤ) (c : List (K × Entry α)) :
    Except PyErr (List (K × Entry α) × ℕ) :=
  if (c.length : ℤ) ≥ max_size then
    match c with
    | [] => .error .stopIteration
    | _ :: rest => .ok (rest, 1)
  else
    .ok (c, 0)

/-- `CacheManager.set` (lines 105-149).  The remote `setex` (attempted
first, outcome `r`) never touches local state and its failure is caught. -/
def set (_r : RemoteWriteOutcome) (now : ℚ) (k : K) (v : α)
    (ttl? : Option ℚ) (s : CacheState K α) :
    Except PyErr (CacheState K α) :=
  let ttl := effTtl ttl? s.default_ttl
  let expires_at := now + ttl
  let cache₁ := removeExisting k s.cache
  match evictIfFull s.max_size cache₁ with
  | .error e => .error e
  | .ok (cache₂, ev) =>
      .ok { s with
              cache := cache₂ ++ [(k, ⟨v, expires_at, now⟩)],
              evictions := s.evictions + ev }

/-- `CacheManager.invalidate` (lines 151-161); the remote `delete` outcome
`r` is caught and has no local effect. -/
def invalidate (_r : RemoteWriteOutcome) (k : K) (s : CacheState K α) :
    CacheState K α :=
  if (lookup k s.cache).isSome then { s with cache := removeKey k s.cache }
  else s

/-- `CacheManager.clear` (lines 163-171); the remote `flushdb` outcome is
caught and has no local effect. -/
def clear (_r : RemoteWriteOutcome) (s : CacheState K α) : CacheState K α :=
  { s with cache := [] }

/-- Two-decimal fixed-point rendering of a nonnegative rational, as
`f"{x:.2f}"` renders the corresponding value. -/
def formatFixed2 (q : ℚ) : String :=
  let cents : ℤ := round (q * 100)
  let ip := cents / 100
  let fp := cents % 100
  toString ip ++ "." ++ (if fp < 10 then "0" else "") ++ toString fp

/-- The record returned by `CacheManager.get_stats` (lines 173-188); the
wall-clock `timestamp` field is omitted, `redis_connected` is passed in. -/
structure Stats where
  hits : ℕ
  misses : ℕ
  evictions : ℕ
  total_requests : ℕ
  hit_rate : String
  cache_size : ℕ
  max_size : ℤ
  redis_connected : Bool
deriving DecidableEq, Repr

/-- `CacheManager.get_stats`. -/
def get_stats (redisConnected : Bool) (s : CacheState K α) : Stats :=
  let total := s.total_requests
  let hit_rate : ℚ := if total > 0 then (s.hits : ℚ) / (total : ℚ) * 100 else 0
  { hits := s.hits
    misses := s.misses
    evictions := s.evictions
    total_requests := total
    hit_rate := formatFixed2 hit_rate ++ "%"
    cache_size := s.cache.length
    max_size := s.max_size
    redis_connected := redisConnected }

/-- Keys of the entries `cleanup_expired` collects (lines 193-196). -/
def expiredKeys (now : ℚ) (s : CacheState K α) : List K :=
  keysOf (s.cache.filter (fun p => p.2.expires_at ≤ now))

/-- `CacheManager.cleanup_expired` (lines 190-204): removes every expired
entry and returns how many were removed. -/
def cleanup_expired (now : ℚ) (s : CacheState K α) : ℕ × CacheState K α :=
  ((expiredKeys now s).length,
   { s with cache := s.cache.filter (fun p => ¬ p.2.expires_at ≤ now) })

/-- The entry `set` builds at time `now`. -/
def newEntry (now : ℚ) (v : α) (ttl? : Option ℚ) (dflt : ℚ) : Entry α :=
  ⟨v, now + effTtl ttl? dflt, now⟩

/-- A freshly constructed `CacheManager(max_size, default_ttl)` with no
Redis client. -/
def initState (max_size : ℤ) (default_ttl : ℚ) : CacheState K α :=
  { max_size := max_size
    default_ttl := default_ttl
    cache := []
    hits := 0
    misses := 0
    evictions := 0
    total_requests := 0 }

/-! ### Scripted operation sequences -/

/-- One scripted call against the manager (no remote client configured),
carrying the wall-clock time of the call. -/
inductive Op (K α : Type)
  | get (now : ℚ) (k : K)
  | set (now : ℚ) (k : K) (v : α) (ttl? : Option ℚ)

/-- Run one scripted call.  A raising `set` leaves the state unchanged
(the branch is unreachable whenever `1 ≤ max_size`, which every theorem
using `runOps` assumes). -/
def runOp (s : CacheState K α) (op : Op K α) : CacheState K α :=
  match op with
  | .get now k => (get .noClient now k s).2
  | .set now k v t =>
      match set .noClient now k v t s with
      | .ok s' => s'
      | .error _ => s

/-- Run a script of calls, left to right. -/
def runOps (s : CacheState K α) (ops : List (Op K α)) : CacheState K α :=
  ops.foldl runOp s

/-- The key a scripted call touches. -/
def Op.key : Op K α → K
  | .get _ k => k
  | .set _ k _ _ => k

/-- Append `k` as the most recent element of a recency list, dropping any
older occurrence. -/
def touch (r : List K) (k : K) : List K :=
  r.filter (fun x => ¬ (x = k)) ++ [k]

/-- The distinct keys touched by a script, ordered oldest to newest. -/
def recentKeys (ops : List (Op K α)) : List K :=
  ops.foldl (fun r op => touch r op.key) []

/-- The last `n` elements of a list (all of it when it is shorter). -/
def lastN (n : ℕ) (l : List K) : List K :=
  l.drop (l.length - n)

/-! ### Embedding of `decorators.py`

`_generate_cache_key` feeds `str(args)`, `sorted(kwargs.items())` and
`hashlib.md5` into an f-string.  The serializations (which may raise — any
`__str__` can) and the hash are opaque library calls, so they are supplied
as an environment; the sort on kwargs items is by keyword name (names in a
Python dict are distinct, so name comparison decides the order). -/

/-- Opaque library calls used by `_generate_cache_key`: `str` on the
positional-argument tuple, `str` on the sorted kwargs item list (either
may raise), and `hashlib.md5(...).hexdigest()`. -/
structure KeyEnv (π ν κV : Type) where
  serArgs : π → Except Unit String
  serKw : List (ν × κV) → Except Unit String
  md5hex : String → String

/-- `sorted(kwargs.items())`: the items sorted by keyword name. -/
def sortedItems {ν κV : Type} [LinearOrder ν] (kw : List (ν × κV)) :
    List (ν × κV) :=
  List.insertionSort (fun a b => a.1 ≤ b.1) kw

/-- `_generate_cache_key(func_name, args, kwargs)` (decorators.py lines
17-37): on any serialization failure the whole `try` falls back to
`f"cache:\x7bfunc_name\x7d"`. -/
def generate_cache_key {π ν κV : Type} [LinearOrder ν] (env : KeyEnv π ν κV)
    (func_name : String) (args : π) (kwargs : List (ν × κV)) : String :=
  match env.serArgs args, env.serKw (sortedItems kwargs) with
  | .ok _sa, .ok _sk =>
      "cache:" ++ func_name ++ ":"
        ++ env.md5hex (func_name ++ ":" ++ _sa ++ ":" ++ _sk)
  | _, _ => "cache:" ++ func_name

/-- One call of the wrapper built by `cached(ttl)` (decorators.py lines
52-70), against a manager with no remote client.  The wrapped function may
return Python `None` (modeled `none`), which the manager's `get` cannot
distinguish from a miss — hence the stored value type is `Option β` and
the wrapper's `is not None` test reads the flattened value.  Returns the
call's result, the new manager state, and whether `f` was invoked. -/
def cachedCall {π ν κV β : Type} [LinearOrder ν] (env : KeyEnv π ν κV)
    (fname : String) (f : π → List (ν × κV) → Option β) (ttl? : Option ℚ)
    (now : ℚ) (args : π) (kwargs : List (ν × κV))
    (s : CacheState String (Option β)) :
    Except PyErr (Option β × CacheState String (Option β) × Bool) :=
  match get .noClient now (generate_cache_key env fname args kwargs) s with
  | (r₁, s₁) =>
      match r₁.getD none with
      | some b => .ok (some b, s₁, false)
      | none =>
          match set .noClient now (generate_cache_key env fname args kwargs)
              (f args kwargs) ttl? s₁ with
          | .ok s₂ => .ok (f args kwargs, s₂, true)
          | .error e => .error e

/-- Two successive wrapper calls (possibly of two functions decorated with
the same `__name__`, possibly with the kwargs permuted); returns the two
results and the two invoked flags. -/
def callTwice {π ν κV β : Type} [LinearOrder ν] (env : KeyEnv π ν κV)
    (fname : String) (f g : π → List (ν × κV) → Option β) (ttl? : Option ℚ)
    (now₁ now₂ : ℚ) (args : π) (kw₁ kw₂ : List (ν × κV))
    (s : CacheState String (Option β)) :
    Except PyErr ((Option β × Bool) × (Option β × Bool)
      × CacheState String (Option β)) :=
  match cachedCall env fname f ttl? now₁ args kw₁ s with
  | .error e => .error e
  | .ok (v₁, s₁, b₁) =>
      match cachedCall env fname g ttl? now₂ args kw₂ s₁ with
      | .error e => .error e
      | .ok (v₂, s₂, b₂) => .ok ((v₁, b₁), (v₂, b₂), s₂)

/-- A scripted sequence of `get` calls (time, key), run left to right with
no remote client. -/
def runGets (s : CacheState K α) (l : List (ℚ × K)) : CacheState K α :=
  l.foldl (fun s q => (get .noClient q.1 q.2 s).2) s

/-- Recognizes `set` calls (scripts of only-`set` calls use it). -/
def Op.isSet : Op K α → Bool
  | .get _ _ => false
  | .set _ _ _ _ => true

/-- How one `set` of key `k` transforms the store's key sequence
(oldest first): drop any old binding of `k`, evict the front when the
store is still at or over capacity, and append `k` at the recent end. -/
def cacheKeysStep (ms : ℤ) (C : List K) (k : K) : List K :=
  (if (((C.filter (fun x => ¬ x = k)).length : ℤ) ≥ ms)
     then (C.filter (fun x => ¬ x = k)).tail
     else C.filter (fun x => ¬ x = k)) ++ [k]

/-- Ghost invariant tying the store's key sequence `C` to the full recency
history `R`: `C` is the suffix of `R` holding its `min m R.length` most
recent keys. -/
def KeysInv (m : ℕ) (R C : List K) : Prop :=
  R.Nodup ∧ ∃ A, R = A ++ C ∧ C.length = min m R.length

/-! ### Concrete instances used by the closed witness theorems -/

/-- The two invoked-flags of a two-call run, when neither call raised. -/
def invokedFlags {β : Type} :
    Except PyErr ((Option β × Bool) × (Option β × Bool)
      × CacheState String (Option β)) → Option (Bool × Bool)
  | .ok (a, b, _) => some (a.2, b.2)
  | .error _ => none

/-- A wrapped function that returns Python `None` on every call. -/
def alwaysNoneFn : ℕ → List (ℕ × ℕ) → Option ℕ := fun _ _ => none

/-- A wrapped function returning 7. -/
def constSevenFn : ℕ → List (ℕ × ℕ) → Option ℕ := fun _ _ => some 7

/-- A different wrapped function (returning 99) sharing `constSevenFn`'s
`__name__`. -/
def constNinetyNineFn : ℕ → List (ℕ × ℕ) → Option ℕ := fun _ _ => some 99

/-- A key environment whose serializers always raise, exercising the
fallback path of `_generate_cache_key`. -/
def errKeyEnv : KeyEnv ℕ ℕ ℕ :=
  ⟨fun _ => .error (), fun _ => .error (), id⟩

/-- A key environment whose serializers always succeed. -/
def okKeyEnv : KeyEnv ℕ ℕ ℕ :=
  ⟨fun a => .ok (toString a), fun kw => .ok (toString (kw.map Prod.fst)),
   fun x => x⟩

/-- A full two-slot manager holding keys `"a"` (oldest) and `"b"`. -/
def lruFullState : CacheState String ℕ :=
  { max_size := 2
    default_ttl := 60
    cache := [("a", ⟨1, 50, 0⟩), ("b", ⟨2, 50, 0⟩)]
    hits := 0
    misses := 0
    evictions := 0
    total_requests := 0 }

/-- A manager with `max_size = 0` holding one surviving entry. -/
def zeroCapState : CacheState String ℕ :=
  { max_size := 0
    default_ttl := 10
    cache := [("a", ⟨5, 100, 0⟩)]
    hits := 0
    misses := 0
    evictions := 0
    total_requests := 0 }

/-- The state reached by `set("x", 3, ttl=2)` at time 0 on a fresh 5-slot
manager. -/
def ttlWitnessState : CacheState String ℕ :=
  { max_size := 5
    default_ttl := 60
    cache := [("x", newEntry 0 3 (some 2) 60)]
    hits := 0
    misses := 0
    evictions := 0
    total_requests := 0 }

/-! ### Store lemmas -/

@[simp]
theorem keysOf_nil : keysOf ([] : List (K × Entry α)) = [] := rfl

@[simp]
theorem keysOf_cons (p : K × Entry α) (c : List (K × Entry α)) :
    keysOf (p :: c) = p.1 :: keysOf c := rfl

@[simp]
theorem keysOf_append (c₁ c₂ : List (K × Entry α)) :
    keysOf (c₁ ++ c₂) = keysOf c₁ ++ keysOf c₂ :=
  List.map_append _ _ _

theorem keysOf_length (c : List (K × Entry α)) :
    (keysOf c).length = c.length :=
  List.length_map _ _

theorem mem_keysOf {k : K} {c : List (K × Entry α)} :
    k ∈ keysOf c ↔ ∃ p ∈ c, p.1 = k := by
  simp [keysOf, List.mem_map, eq_comm]

theorem lookup_eq_none_iff {k : K} {c : List (K × Entry α)} :
    lookup k c = none ↔ k ∉ keysOf c := by
  constructor
  · intro h hk
    obtain ⟨p, hp, hpk⟩ := mem_keysOf.mp hk
    cases hf : c.find? (fun q => decide (q.1 = k)) with
    | some q => simp [lookup, hf] at h
    | none =>
        have := List.find?_eq_none.mp hf p hp
        simp [hpk] at this
  · intro h
    have hf : c.find? (fun q => decide (q.1 = k)) = none := by
      apply List.find?_eq_none.mpr
      intro p hp
      simp only [decide_eq_true_eq]
      intro hpk
      exact h (mem_keysOf.mpr ⟨p, hp, hpk⟩)
    simp [lookup, hf]

theorem keysOf_removeKey (k : K) (c : List (K × Entry α)) :
    keysOf (removeKey k c) = (keysOf c).filter (fun x => ¬ x = k) := by
  induction c with
  | nil => rfl
  | cons p c ih =>
      simp only [removeKey, keysOf, List.filter_cons, List.map_cons] at ih ⊢
      by_cases h : p.1 = k
      · simpa [h] using ih
      · simpa [h] using ih

theorem not_mem_keysOf_removeKey (k : K) (c : List (K × Entry α)) :
    k ∉ keysOf (removeKey k c) := by
  rw [keysOf_removeKey]
  intro h
  simp at h

theorem lookup_removeKey_self (k : K) (c : List (K × Entry α)) :
    lookup k (removeKey k c) = none :=
  lookup_eq_none_iff.mpr (not_mem_keysOf_removeKey k c)

theorem find?_filter_of_imp {β : Type} {p q : β → Bool} (l : List β)
    (h : ∀ a, p a = true → q a = true) :
    (l.filter q).find? p = l.find? p := by
  induction l with
  | nil => rfl
  | cons a l ih =>
      by_cases hq : q a
      · rw [List.filter_cons_of_pos hq]
        by_cases hp : p a
        · rw [List.find?_cons_of_pos _ hp, List.find?_cons_of_pos _ hp]
        · rw [List.find?_cons_of_neg _ hp, List.find?_cons_of_neg _ hp, ih]
      · have hp : ¬ p a = true := fun hp => hq (h a hp)
        rw [List.filter_cons_of_neg hq, ih, List.find?_cons_of_neg _ hp]

theorem lookup_removeKey_ne {k' k : K} (h : k' ≠ k) (c : List (K × Entry α)) :
    lookup k' (removeKey k c) = lookup k' c := by
  unfold lookup removeKey
  rw [find?_filter_of_imp]
  intro a ha
  simp only [decide_eq_true_eq] at ha ⊢
  rw [ha]
  exact h

theorem find?_of_forall_ne {k : K} {c : List (K × Entry α)}
    (h : k ∉ keysOf c) :
    c.find? (fun q => decide (q.1 = k)) = none := by
  apply List.find?_eq_none.mpr
  intro p hp
  simp only [decide_eq_true_eq]
  intro hpk
  exact h (mem_keysOf.mpr ⟨p, hp, hpk⟩)

theorem lookup_append_self {k : K} {c : List (K × Entry α)}
    (h : k ∉ keysOf c) (e : Entry α) :
    lookup k (c ++ [(k, e)]) = some e := by
  unfold lookup
  rw [List.find?_append, find?_of_forall_ne h]
  simp [List.find?]

theorem lookup_append_ne {k' k : K} (h : k' ≠ k) (c : List (K × Entry α))
    (e : Entry α) :
    lookup k' (c ++ [(k, e)]) = lookup k' c := by
  unfold lookup
  rw [List.find?_append]
  have hke : ((k, e) : K × Entry α).1 = k' ↔ False := by
    simp only [iff_false]
    exact fun hh => h hh.symm
  cases hf : c.find? (fun q => decide (q.1 = k')) with
  | some q => simp
  | none => simp [List.find?, hke]

theorem removeExisting_eq_removeKey (k : K) (c : List (K × Entry α)) :
    removeExisting k c = removeKey k c := by
  unfold removeExisting
  cases h : lookup k c with
  | some e => simp [h]
  | none =>
      have : k ∉ keysOf c := lookup_eq_none_iff.mp h
      have : removeKey k c = c := by
        apply List.filter_eq_self.mpr
        intro p hp
        simp only [decide_eq_true_eq]
        intro hpk
        exact this (mem_keysOf.mpr ⟨p, hp, hpk⟩)
      simp [h, this]

theorem length_removeKey_le (k : K) (c : List (K × Entry α)) :
    (removeKey k c).length ≤ c.length :=
  List.length_filter_le _ _

theorem removeKey_of_not_mem {k : K} {c : List (K × Entry α)}
    (h : k ∉ keysOf c) : removeKey k c = c := by
  apply List.filter_eq_self.mpr
  intro p hp
  simp only [decide_eq_true_eq]
  intro hpk
  exact h (mem_keysOf.mpr ⟨p, hp, hpk⟩)

/-! ### Operation characterizations -/

theorem moveToEnd_of_lookup {k : K} {c : List (K × Entry α)} {e : Entry α}
    (h : lookup k c = some e) :
    moveToEnd k c = removeKey k c ++ [(k, e)] := by
  unfold lookup at h
  cases hf : c.find? (fun q => decide (q.1 = k)) with
  | none => simp [hf] at h
  | some p =>
      have hp1 : p.1 = k := by
        have := List.find?_some hf
        simpa using this
      have hp2 : p.2 = e := by
        rw [hf] at h
        simpa using h
      unfold moveToEnd
      rw [hf]
      rw [show p = (k, e) from Prod.ext hp1 hp2]

theorem localGet_miss {k : K} {s : CacheState K α}
    (h : lookup k s.cache = none) (now : ℚ) :
    localGet now k s = (none, { s with misses := s.misses + 1 }) := by
  simp [localGet, h]

theorem localGet_hit {k : K} {s : CacheState K α} {e : Entry α}
    (h : lookup k s.cache = some e) {now : ℚ} (hexp : e.expires_at > now) :
    localGet now k s =
      (some e.value,
       { s with hits := s.hits + 1, cache := removeKey k s.cache ++ [(k, e)] }) := by
  simp [localGet, h, hexp, moveToEnd_of_lookup h]

theorem localGet_expired {k : K} {s : CacheState K α} {e : Entry α}
    (h : lookup k s.cache = some e) {now : ℚ} (hexp : ¬ e.expires_at > now) :
    localGet now k s =
      (none, { s with misses := s.misses + 1, cache := removeKey k s.cache }) := by
  simp [localGet, h, hexp]

theorem get_noClient_def (now : ℚ) (k : K) (s : CacheState K α) :
    get .noClient now k s =
      localGet now k { s with total_requests := s.total_requests + 1 } := rfl

theorem set_eq_ok_evict {k : K} {s : CacheState K α}
    {p : K × Entry α} {rest : List (K × Entry α)}
    (hc : removeKey k s.cache = p :: rest)
    (hfull : ((p :: rest).length : ℤ) ≥ s.max_size)
    (r : RemoteWriteOutcome) (now : ℚ) (v : α) (ttl? : Option ℚ) :
    set r now k v ttl? s =
      .ok { s with
              cache := rest ++ [(k, newEntry now v ttl? s.default_ttl)],
              evictions := s.evictions + 1 } := by
  simp only [set, evictIfFull, removeExisting_eq_removeKey, hc]
  rw [if_pos hfull]
  rfl

theorem set_eq_ok_noevict {k : K} {s : CacheState K α}
    (hfull : ¬ ((removeKey k s.cache).length : ℤ) ≥ s.max_size)
    (r : RemoteWriteOutcome) (now : ℚ) (v : α) (ttl? : Option ℚ) :
    set r now k v ttl? s =
      .ok { s with
              cache := removeKey k s.cache
                ++ [(k, newEntry now v ttl? s.default_ttl)] } := by
  simp only [set, evictIfFull, removeExisting_eq_removeKey]
  rw [if_neg hfull]
  rfl

theorem set_eq_error {k : K} {s : CacheState K α}
    (hc : removeKey k s.cache = []) (hms : s.max_size ≤ 0)
    (r : RemoteWriteOutcome) (now : ℚ) (v : α) (ttl? : Option ℚ) :
    set r now k v ttl? s = .error .stopIteration := by
  have hge : ((([] : List (K × Entry α)).length : ℤ) ≥ s.max_size) := by
    simpa using hms
  simp only [set, evictIfFull, removeExisting_eq_removeKey, hc]
  rw [if_pos hge]

/-- Whenever `max_size ≥ 1`, `set` cannot raise and its result has the new
entry appended at the most-recent end of a `k`-free store, with all other
fields unchanged except `evictions`. -/
theorem set_ok_of_max_pos {k : K} {s : CacheState K α}
    (hm : 1 ≤ s.max_size) (r : RemoteWriteOutcome) (now : ℚ) (v : α)
    (ttl? : Option ℚ) :
    ∃ c₀ ev,
      set r now k v ttl? s =
        .ok { s with
                cache := c₀ ++ [(k, newEntry now v ttl? s.default_ttl)],
                evictions := s.evictions + ev }
      ∧ k ∉ keysOf c₀ ∧ c₀.length ≤ (removeKey k s.cache).length := by
  by_cases hfull : ((removeKey k s.cache).length : ℤ) ≥ s.max_size
  · cases hc : removeKey k s.cache with
    | nil =>
        rw [hc] at hfull
        exfalso
        simp only [List.length_nil, Nat.cast_zero, ge_iff_le] at hfull
        omega
    | cons p rest =>
        rw [hc] at hfull
        have hnm : k ∉ keysOf (p :: rest) :=
          hc ▸ not_mem_keysOf_removeKey k s.cache
        refine ⟨rest, 1, set_eq_ok_evict hc hfull r now v ttl?, ?_, ?_⟩
        · intro hk
          exact hnm (by simp [hk])
        · simp
  · refine ⟨removeKey k s.cache, 0,
      by simpa using set_eq_ok_noevict hfull r now v ttl?,
      not_mem_keysOf_removeKey k s.cache, le_refl _⟩

/-- Fields of the state produced by a successful `set`. -/
theorem set_ok_fields {k : K} {s s' : CacheState K α}
    {r : RemoteWriteOutcome} {now : ℚ} {v : α} {ttl? : Option ℚ}
    (h : set r now k v ttl? s = .ok s') :
    s'.max_size = s.max_size ∧ s'.default_ttl = s.default_ttl
      ∧ s'.hits = s.hits ∧ s'.misses = s.misses
      ∧ s'.total_requests = s.total_requests
      ∧ ∃ c₀, s'.cache = c₀ ++ [(k, newEntry now v ttl? s.default_ttl)]
          ∧ k ∉ keysOf c₀ := by
  by_cases hfull : ((removeKey k s.cache).length : ℤ) ≥ s.max_size
  · cases hc : removeKey k s.cache with
    | nil =>
        rw [hc] at hfull
        have hms : s.max_size ≤ 0 := by simpa using hfull
        rw [set_eq_error hc hms r now v ttl?] at h
        exact absurd h (by simp)
    | cons p rest =>
        rw [hc] at hfull
        rw [set_eq_ok_evict hc hfull r now v ttl?] at h
        simp only [Except.ok.injEq] at h
        subst h
        refine ⟨rfl, rfl, rfl, rfl, rfl, rest, rfl, ?_⟩
        have hnm : k ∉ keysOf (p :: rest) :=
          hc ▸ not_mem_keysOf_removeKey k s.cache
        intro hk
        exact hnm (by simp [hk])
  · rw [set_eq_ok_noevict hfull r now v ttl?] at h
    simp only [Except.ok.injEq] at h
    subst h
    exact ⟨rfl, rfl, rfl, rfl, rfl, removeKey k s.cache, rfl,
      not_mem_keysOf_removeKey k s.cache⟩

/-- After a successful `set`, looking the key up finds exactly the entry
just written. -/
theorem lookup_after_set {k : K} {s s' : CacheState K α}
    {r : RemoteWriteOutcome} {now : ℚ} {v : α} {ttl? : Option ℚ}
    (h : set r now k v ttl? s = .ok s') :
    lookup k s'.cache = some (newEntry now v ttl? s.default_ttl) := by
  obtain ⟨-, -, -, -, -, c₀, hc, hk⟩ := set_ok_fields h
  rw [hc]
  exact lookup_append_self hk _

theorem lookup_invalidate_self (r : RemoteWriteOutcome) (k : K)
    (s : CacheState K α) :
    lookup k (invalidate r k s).cache = none := by
  unfold invalidate
  cases h : lookup k s.cache with
  | some e => simp only [h, Option.isSome_some, if_pos]; exact lookup_removeKey_self k s.cache
  | none => simp [h]

theorem invalidate_of_absent {r : RemoteWriteOutcome} {k : K}
    {s : CacheState K α} (h : lookup k s.cache = none) :
    invalidate r k s = s := by
  unfold invalidate
  simp [h]

/-! ### Claim theorems -/

/-- C8: invalidate is idempotent — calling `invalidate(key)` twice raises
no error (both calls are total and their remote-delete failures are
caught), after each call the key is absent from the local store, and a
`get` of the key after either call returns absent, whether or not the key
was present initially. -/
theorem C8_idempotent_invalidation (r₁ r₂ : RemoteWriteOutcome) (k : K)
    (s : CacheState K α) (now now' : ℚ) :
    k ∉ keysOf (invalidate r₁ k s).cache
    ∧ invalidate r₂ k (invalidate r₁ k s) = invalidate r₁ k s
    ∧ (get .noClient now k (invalidate r₁ k s)).1 = none
    ∧ (get .noClient now' k (invalidate r₂ k (invalidate r₁ k s))).1 = none := by
  have h₁ : lookup k (invalidate r₁ k s).cache = none :=
    lookup_invalidate_self r₁ k s
  have h₂ : invalidate r₂ k (invalidate r₁ k s) = invalidate r₁ k s :=
    invalidate_of_absent h₁
  refine ⟨lookup_eq_none_iff.mp h₁, h₂, ?_, ?_⟩
  · rw [get_noClient_def, localGet_miss (by simpa using h₁)]
  · rw [h₂, get_noClient_def, localGet_miss (by simpa using h₁)]

/-- C7: key-derivation fallback — whenever serializing the arguments into
the key string raises, `_generate_cache_key` swallows the exception and
returns the identifier-only key `"cache:" ++ func_name`; consequently any
two calls of the same function with unserializable arguments collide on
the same key. -/
theorem C7_key_fallback {π ν κV : Type} [LinearOrder ν] (env : KeyEnv π ν κV)
    (fname : String) (a₁ a₂ : π) (kw₁ kw₂ : List (ν × κV))
    (h₁ : env.serArgs a₁ = .error ()
      ∨ env.serKw (sortedItems kw₁) = .error ())
    (h₂ : env.serArgs a₂ = .error ()
      ∨ env.serKw (sortedItems kw₂) = .error ()) :
    generate_cache_key env fname a₁ kw₁ = "cache:" ++ fname
    ∧ generate_cache_key env fname a₂ kw₂
        = generate_cache_key env fname a₁ kw₁ := by
  have hfb : ∀ (a : π) (kw : List (ν × κV)),
      (env.serArgs a = .error () ∨ env.serKw (sortedItems kw) = .error ()) →
      generate_cache_key env fname a kw = "cache:" ++ fname := by
    intro a kw h
    unfold generate_cache_key
    rcases h with h | h
    · rw [h]
    · cases hsa : env.serArgs a with
      | error e => rfl
      | ok sa => rw [h]
  exact ⟨hfb a₁ kw₁ h₁, by rw [hfb a₁ kw₁ h₁, hfb a₂ kw₂ h₂]⟩

/-- C7 witness: both serializations of two distinct argument tuples raise,
and both calls collapse to the identifier-only key. -/
theorem C7_witness :
    ((errKeyEnv.serArgs 1 = .error ()
        ∨ errKeyEnv.serKw (sortedItems []) = .error ())
     ∧ (errKeyEnv.serArgs 2 = .error ()
        ∨ errKeyEnv.serKw (sortedItems []) = .error ()))
    ∧ (generate_cache_key errKeyEnv "fetch" 1 [] = "cache:" ++ "fetch"
       ∧ generate_cache_key errKeyEnv "fetch" 2 []
           = generate_cache_key errKeyEnv "fetch" 1 []) :=
  ⟨⟨Or.inl rfl, Or.inl rfl⟩,
   C7_key_fallback errKeyEnv "fetch" 1 2 [] [] (Or.inl rfl) (Or.inl rfl)⟩

/-- C2 counterexample: on a fresh manager with `max_size = 0`, the very
first `set` raises `StopIteration` (`next(iter(...))` on the empty store),
refuting "every call to set completes without raising an exception; in
particular set on an empty store with max_size = 0 does not crash". -/
theorem C2_counterexample :
    set .noClient 0 "k" (7 : ℕ) none
      (initState 0 3600 : CacheState String ℕ) = .error .stopIteration := by
  rfl

/-- C2 (amended): with `max_size ≤ 0`, `set` behaves as always-evict-on-
insert and completes without raising exactly when the store still holds an
entry under some other key after the same-key removal; it then evicts the
least-recent entry before inserting, increments the eviction counter, and
leaves the store no larger than before (zero durable entries beyond the
one just inserted when the store held a single entry).  When the store is
empty — in particular on a fresh manager — or the inserted key was the
only key, `set` raises `StopIteration` from evicting an empty store. -/
theorem C2_zero_capacity_amended (r : RemoteWriteOutcome) (now : ℚ) (k : K)
    (v : α) (ttl? : Option ℚ) (s : CacheState K α) (hms : s.max_size ≤ 0) :
    (removeKey k s.cache = [] → set r now k v ttl? s = .error .stopIteration)
    ∧ ∀ p rest, removeKey k s.cache = p :: rest →
        set r now k v ttl? s =
          .ok { s with
                  cache := rest ++ [(k, newEntry now v ttl? s.default_ttl)],
                  evictions := s.evictions + 1 }
        ∧ (rest ++ [(k, newEntry now v ttl? s.default_ttl)]).length
            ≤ s.cache.length := by
  constructor
  · intro hc
    exact set_eq_error hc hms r now v ttl?
  · intro p rest hc
    have hfull : (((p :: rest) : List (K × Entry α)).length : ℤ) ≥ s.max_size := by
      have : (0 : ℤ) ≤ ((p :: rest) : List (K × Entry α)).length := by positivity
      omega
    refine ⟨set_eq_ok_evict hc hfull r now v ttl?, ?_⟩
    have h₁ : (rest ++ [(k, newEntry now v ttl? s.default_ttl)]).length
        = (p :: rest : List (K × Entry α)).length := by simp
    rw [h₁, ← hc]
    exact length_removeKey_le k s.cache

/-- C2 witness: on a `max_size = 0` manager holding the single key `"a"`,
setting the fresh key `"b"` completes, evicts `"a"`, and leaves one entry. -/
theorem C2_witness :
    zeroCapState.max_size ≤ 0
    ∧ (set .noClient 3 "b" 9 none zeroCapState =
        .ok { zeroCapState with
                cache := [] ++ [("b", newEntry 3 (9 : ℕ) none
                  zeroCapState.default_ttl)],
                evictions := zeroCapState.evictions + 1 }
       ∧ ([] ++ [("b", newEntry 3 (9 : ℕ) none
            zeroCapState.default_ttl)]).length ≤ zeroCapState.cache.length) :=
  ⟨by decide,
   (C2_zero_capacity_amended .noClient 3 "b" 9 none zeroCapState
      (by decide)).2 ("a", ⟨5, 100, 0⟩) [] (by decide)⟩

theorem localGet_hits_frame (now : ℚ) (k : K) (s : CacheState K α) (h' : ℕ) :
    (localGet now k { s with hits := h' }).1 = (localGet now k s).1
    ∧ (localGet now k { s with hits := h' }).2.cache
        = (localGet now k s).2.cache
    ∧ (localGet now k { s with hits := h' }).2.misses
        = (localGet now k s).2.misses
    ∧ (localGet now k { s with hits := h' }).2.total_requests
        = (localGet now k s).2.total_requests := by
  cases hl : lookup k s.cache with
  | none => simp [localGet, hl]
  | some e =>
      by_cases hexp : e.expires_at > now <;> simp [localGet, hl, hexp]

/-- C6: remote-mirror failure transparency — a raising remote read or
write is caught: `get`, `set`, `invalidate` and `clear` behave exactly as
with no remote client (for a remote value whose `json.loads` raises, the
returned value, store, miss counter and request counter still match the
local-only run), no exception escapes (`set` with a raising mirror still
returns `.ok` whenever `max_size ≥ 1`), and the local write of `set`
still lands: the key maps to the freshly written entry afterwards. -/
theorem C6_remote_failure_transparency :
    (∀ (now : ℚ) (k : K) (s : CacheState K α),
       get .raised now k s = get .noClient now k s)
    ∧ (∀ (now : ℚ) (k : K) (s : CacheState K α),
        (get .badJson now k s).1 = (get .noClient now k s).1
        ∧ (get .badJson now k s).2.cache = (get .noClient now k s).2.cache
        ∧ (get .badJson now k s).2.misses = (get .noClient now k s).2.misses
        ∧ (get .badJson now k s).2.total_requests
            = (get .noClient now k s).2.total_requests)
    ∧ (∀ (now : ℚ) (k : K) (v : α) (t : Option ℚ) (s : CacheState K α),
        set .raised now k v t s = set .noClient now k v t s
        ∧ (1 ≤ s.max_size → ∃ s', set .raised now k v t s = .ok s'
            ∧ lookup k s'.cache = some (newEntry now v t s.default_ttl)))
    ∧ (∀ (k : K) (s : CacheState K α),
        invalidate .raised k s = invalidate .noClient k s
        ∧ k ∉ keysOf (invalidate .raised k s).cache)
    ∧ (∀ s : CacheState K α,
        clear .raised s = clear .noClient s ∧ (clear .raised s).cache = []) := by
  refine ⟨fun now k s => rfl, fun now k s => ?_, fun now k v t s => ?_,
    fun k s => ⟨rfl, ?_⟩, fun s => ⟨rfl, rfl⟩⟩
  · exact localGet_hits_frame now k
      { s with total_requests := s.total_requests + 1 } _
  · refine ⟨rfl, fun hm => ?_⟩
    obtain ⟨c₀, ev, hset, -, -⟩ := set_ok_of_max_pos hm .raised now v t
    exact ⟨_, hset, lookup_after_set hset⟩
  · exact lookup_eq_none_iff.mp (lookup_invalidate_self .raised k s)

/-- C9: a cache hit does not extend an entry's lifetime — `get` on a
present, unexpired key returns the stored value and leaves the entry
itself (value and `expires_at`) unchanged, moving it to the recent end,
leaving every other key's binding untouched, bumping only `hits` and
`total_requests`; a new `expires_at` is assigned only by `set`. -/
theorem C9_get_hit_frame {k : K} {s : CacheState K α} {e : Entry α}
    (h : lookup k s.cache = some e) {now : ℚ} (hexp : e.expires_at > now) :
    get .noClient now k s
      = (some e.value,
         { s with hits := s.hits + 1,
                  total_requests := s.total_requests + 1,
                  cache := removeKey k s.cache ++ [(k, e)] })
    ∧ lookup k (removeKey k s.cache ++ [(k, e)]) = some e
    ∧ (∀ k', k' ≠ k →
        lookup k' (removeKey k s.cache ++ [(k, e)]) = lookup k' s.cache)
    ∧ (∀ (r : RemoteWriteOutcome) (now' : ℚ) (v : α) (t : Option ℚ)
        (s'' : CacheState K α),
        set r now' k v t s = .ok s'' →
        lookup k s''.cache = some (newEntry now' v t s.default_ttl)) := by
  refine ⟨?_, lookup_append_self (not_mem_keysOf_removeKey k s.cache) e,
    fun k' hk' => ?_, fun r now' v t s'' hset => lookup_after_set hset⟩
  · rw [get_noClient_def]
    exact localGet_hit
      (s := { s with total_requests := s.total_requests + 1 }) h hexp
  · rw [lookup_append_ne hk', lookup_removeKey_ne hk']

/-- C6 witness: on a concrete one-slot manager, `set` with a raising
remote mirror equals the local-only `set`, returns `.ok`, and the key is
bound to the new entry afterwards. -/
theorem C6_witness :
    (set .raised 0 "k" (5 : ℕ) none (initState 1 60 : CacheState String ℕ)
       = set .noClient 0 "k" 5 none (initState 1 60))
    ∧ (1 ≤ (initState 1 60 : CacheState String ℕ).max_size
       → ∃ s', set .raised 0 "k" (5 : ℕ) none (initState 1 60) = .ok s'
           ∧ lookup "k" s'.cache
               = some (newEntry 0 5 none
                   (initState 1 60 : CacheState String ℕ).default_ttl)) :=
  (C6_remote_failure_transparency.2.2.1 0 "k" (5 : ℕ) none
    (initState 1 60 : CacheState String ℕ))

/-- C9 witness: a hit on the single stored entry of a concrete manager
leaves its value and expiry unchanged while bumping only the counters. -/
theorem C9_witness :
    get .noClient 1 "a" zeroCapState
      = (some (5 : ℕ),
         { zeroCapState with
             hits := zeroCapState.hits + 1,
             total_requests := zeroCapState.total_requests + 1,
             cache := removeKey "a" zeroCapState.cache
               ++ [("a", ⟨5, 100, 0⟩)] }) :=
  (C9_get_hit_frame (k := "a") (s := zeroCapState) (e := ⟨5, 100, 0⟩)
    (by decide) (by decide)).1

/-- C4: TTL expiry — for an entry written by `set` with a (nonzero) TTL
`t`, once more than `t` seconds have elapsed a `get` of the key returns
absent, counts a miss and drops the entry; and `cleanup_expired` run on
the post-`set` state removes the entry and counts it (the key is among
the expired keys whose number it returns). -/
theorem C4_ttl_expiry {k : K} {v : α} {r : RemoteWriteOutcome}
    {s s₁ : CacheState K α} {now₁ now₂ t : ℚ}
    (hset : set r now₁ k v (some t) s = .ok s₁)
    (ht : t ≠ 0)
    (hgap : now₂ - now₁ > t) :
    (get .noClient now₂ k s₁).1 = none
    ∧ (get .noClient now₂ k s₁).2.misses = s₁.misses + 1
    ∧ k ∉ keysOf (get .noClient now₂ k s₁).2.cache
    ∧ k ∈ expiredKeys now₂ s₁
    ∧ (cleanup_expired now₂ s₁).1 = (expiredKeys now₂ s₁).length
    ∧ 1 ≤ (cleanup_expired now₂ s₁).1
    ∧ k ∉ keysOf (cleanup_expired now₂ s₁).2.cache := by
  have heff : effTtl (some t) s.default_ttl = t := by simp [effTtl, ht]
  have hentry : newEntry now₁ v (some t) s.default_ttl
      = ⟨v, now₁ + t, now₁⟩ := by simp [newEntry, heff]
  obtain ⟨-, -, -, -, -, c₀, hcache, hc₀⟩ := set_ok_fields hset
  rw [hentry] at hcache
  have hlk : lookup k s₁.cache = some ⟨v, now₁ + t, now₁⟩ := by
    rw [hcache]
    exact lookup_append_self hc₀ _
  have hexp : ¬ ((⟨v, now₁ + t, now₁⟩ : Entry α).expires_at > now₂) := by
    simp only [not_lt]
    linarith
  have hget : get .noClient now₂ k s₁
      = (none, { s₁ with misses := s₁.misses + 1,
                         total_requests := s₁.total_requests + 1,
                         cache := removeKey k s₁.cache }) := by
    rw [get_noClient_def]
    exact localGet_expired
      (s := { s₁ with total_requests := s₁.total_requests + 1 }) hlk hexp
  have hkmem : k ∈ expiredKeys now₂ s₁ := by
    unfold expiredKeys
    apply mem_keysOf.mpr
    refine ⟨(k, ⟨v, now₁ + t, now₁⟩), ?_, rfl⟩
    apply List.mem_filter.mpr
    refine ⟨?_, by simp only [decide_eq_true_eq]; linarith⟩
    rw [hcache]
    simp
  have hkuniq : ∀ p ∈ s₁.cache, p.1 = k → p = (k, ⟨v, now₁ + t, now₁⟩) := by
    intro p hp hpk
    rw [hcache] at hp
    rcases List.mem_append.mp hp with hp | hp
    · exact absurd (mem_keysOf.mpr ⟨p, hp, hpk⟩) hc₀
    · simpa using hp
  refine ⟨by rw [hget], by rw [hget], ?_, hkmem, rfl,
    List.length_pos_of_mem hkmem, ?_⟩
  · rw [hget]
    exact not_mem_keysOf_removeKey k s₁.cache
  · intro hk
    obtain ⟨p, hp, hpk⟩ := mem_keysOf.mp hk
    have hpc := List.mem_filter.mp hp
    have hpe := hkuniq p hpc.1 hpk
    rw [hpe] at hpc
    have := hpc.2
    simp only [decide_eq_true_eq] at this
    exact this (by change now₁ + t ≤ now₂; linarith)

/-- C4 witness: an entry set at time 0 with TTL 2 is gone at time 5 — the
`get` misses and a sweep removes and counts it. -/
theorem C4_witness :
    (set .noClient 0 "x" (3 : ℕ) (some 2) (initState 5 60)
       = .ok ttlWitnessState)
    ∧ ((2 : ℚ) ≠ 0) ∧ ((5 : ℚ) - 0 > 2)
    ∧ ((get .noClient 5 "x" ttlWitnessState).1 = none
       ∧ (get .noClient 5 "x" ttlWitnessState).2.misses
           = ttlWitnessState.misses + 1
       ∧ "x" ∉ keysOf (get .noClient 5 "x" ttlWitnessState).2.cache
       ∧ "x" ∈ expiredKeys 5 ttlWitnessState
       ∧ (cleanup_expired 5 ttlWitnessState).1
           = (expiredKeys 5 ttlWitnessState).length
       ∧ 1 ≤ (cleanup_expired 5 ttlWitnessState).1
       ∧ "x" ∉ keysOf (cleanup_expired 5 ttlWitnessState).2.cache) :=
  ⟨by rfl, by decide, by simp; decide,
   @C4_ttl_expiry String ℕ _ "x" (3 : ℕ) .noClient (initState 5 60)
     ttlWitnessState 0 5 2 (by rfl) (by decide) (by simp; decide)⟩

theorem get_counters (now : ℚ) (k : K) (s : CacheState K α) :
    (get .noClient now k s).2.total_requests = s.total_requests + 1
    ∧ ((get .noClient now k s).2.hits = s.hits + 1
        ∧ (get .noClient now k s).2.misses = s.misses
       ∨ (get .noClient now k s).2.misses = s.misses + 1
        ∧ (get .noClient now k s).2.hits = s.hits) := by
  rw [get_noClient_def]
  cases hl : lookup k s.cache with
  | none =>
      rw [localGet_miss
        (s := { s with total_requests := s.total_requests + 1 }) hl]
      exact ⟨rfl, Or.inr ⟨rfl, rfl⟩⟩
  | some e =>
      by_cases hexp : e.expires_at > now
      · rw [localGet_hit
          (s := { s with total_requests := s.total_requests + 1 }) hl hexp]
        exact ⟨rfl, Or.inl ⟨rfl, rfl⟩⟩
      · rw [localGet_expired
          (s := { s with total_requests := s.total_requests + 1 }) hl hexp]
        exact ⟨rfl, Or.inr ⟨rfl, rfl⟩⟩

theorem runGets_counters (l : List (ℚ × K)) :
    ∀ s : CacheState K α,
      (runGets s l).total_requests = s.total_requests + l.length
      ∧ (runGets s l).hits + (runGets s l).misses
          = s.hits + s.misses + l.length := by
  induction l with
  | nil => intro s; simp [runGets]
  | cons q l ih =>
      intro s
      obtain ⟨ht, hd⟩ := get_counters q.1 q.2 s
      obtain ⟨ih₁, ih₂⟩ := ih ((get .noClient q.1 q.2 s).2)
      have hrun : runGets s (q :: l)
          = runGets ((get .noClient q.1 q.2 s).2) l := rfl
      rw [hrun]
      constructor
      · rw [ih₁, ht, List.length_cons]
        omega
      · rw [ih₂, List.length_cons]
        rcases hd with ⟨h1, h2⟩ | ⟨h1, h2⟩ <;> rw [h1, h2] <;> omega

/-- C3: stats correctness — each `get` (no remote mirror) bumps
`total_requests` by exactly one and exactly one of `hits`/`misses` by
exactly one; a scripted sequence of `N` gets on a fresh manager therefore
ends with `hits + misses = total_requests = N`; and `get_stats` renders
`hit_rate` as `hits / total_requests * 100` formatted to two decimals with
a `%` sign, yielding `0.00%` (no division) when `total_requests = 0`. -/
theorem C3_stats_correctness :
    (∀ (now : ℚ) (k : K) (s : CacheState K α),
       (get .noClient now k s).2.total_requests = s.total_requests + 1
       ∧ ((get .noClient now k s).2.hits = s.hits + 1
           ∧ (get .noClient now k s).2.misses = s.misses
          ∨ (get .noClient now k s).2.misses = s.misses + 1
           ∧ (get .noClient now k s).2.hits = s.hits))
    ∧ (∀ (l : List (ℚ × K)) (m : ℤ) (d : ℚ),
        (runGets (initState m d : CacheState K α) l).hits
            + (runGets (initState m d : CacheState K α) l).misses = l.length
        ∧ (runGets (initState m d : CacheState K α) l).total_requests
            = l.length)
    ∧ (∀ (b : Bool) (s : CacheState K α),
        (get_stats b s).hit_rate
          = formatFixed2 (if s.total_requests > 0
              then (s.hits : ℚ) / (s.total_requests : ℚ) * 100 else 0) ++ "%"
        ∧ (s.total_requests = 0 → (get_stats b s).hit_rate = "0.00%")) := by
  refine ⟨get_counters, fun l m d => ?_, fun b s => ⟨rfl, fun h0 => ?_⟩⟩
  · obtain ⟨h₁, h₂⟩ := runGets_counters l (initState m d : CacheState K α)
    exact ⟨by simpa [initState] using h₂, by simpa [initState] using h₁⟩
  · have h2 : formatFixed2 0 = "0.00" := by
      have h1 : round ((0 : ℚ) * 100) = 0 := by norm_num
      simp only [formatFixed2, h1]
      decide
    have h3 : (get_stats b s).hit_rate = formatFixed2 0 ++ "%" := by
      simp only [get_stats, h0]
      norm_num
    rw [h3, h2]
    rfl

/-- C3 witness: on a fresh manager `total_requests = 0` and `get_stats`
renders `hit_rate` as `0.00%` without dividing. -/
theorem C3_witness :
    ((initState 3 60 : CacheState String ℕ).total_requests = 0)
    ∧ ((get_stats false (initState 3 60 : CacheState String ℕ)).hit_rate
        = "0.00%") :=
  ⟨rfl,
   ((C3_stats_correctness (K := String) (α := ℕ)).2.2 false
      (initState 3 60)).2 rfl⟩

theorem sortedItems_perm_invariant {ν κV : Type} [LinearOrder ν]
    {kw₁ kw₂ : List (ν × κV)} (hperm : kw₁.Perm kw₂)
    (hnd : (kw₁.map Prod.fst).Nodup) :
    sortedItems kw₁ = sortedItems kw₂ := by
  haveI htot : IsTotal (ν × κV) (fun a b => a.1 ≤ b.1) :=
    ⟨fun a b => le_total a.1 b.1⟩
  haveI htrans : IsTrans (ν × κV) (fun a b => a.1 ≤ b.1) :=
    ⟨fun a b c h₁ h₂ => le_trans h₁ h₂⟩
  haveI hanti : IsAntisymm (ν × κV) (fun a b => a.1 ≤ b.1 ∧ a.1 ≠ b.1) :=
    ⟨fun a b h₁ h₂ => absurd (le_antisymm h₁.1 h₂.1) h₁.2⟩
  have p₁ := List.perm_insertionSort (fun a b : ν × κV => a.1 ≤ b.1) kw₁
  have p₂ := List.perm_insertionSort (fun a b : ν × κV => a.1 ≤ b.1) kw₂
  have hp : (sortedItems kw₁).Perm (sortedItems kw₂) :=
    p₁.trans (hperm.trans p₂.symm)
  have key : ∀ l : List (ν × κV), List.Sorted (fun a b => a.1 ≤ b.1) l →
      (l.map Prod.fst).Nodup →
      List.Pairwise (fun a b => a.1 ≤ b.1 ∧ a.1 ≠ b.1) l := by
    intro l hs hn
    have hne : List.Pairwise (fun a b : ν × κV => a.1 ≠ b.1) l :=
      (List.pairwise_map).mp hn
    exact hs.and hne
  have hnd₁ : ((sortedItems kw₁).map Prod.fst).Nodup :=
    ((p₁.map Prod.fst).nodup_iff).mpr hnd
  have hnd₂ : ((sortedItems kw₂).map Prod.fst).Nodup :=
    ((hp.map Prod.fst).nodup_iff).mp hnd₁
  exact List.eq_of_perm_of_sorted hp
    (key _ (List.sorted_insertionSort _ kw₁) hnd₁)
    (key _ (List.sorted_insertionSort _ kw₂) hnd₂)

theorem cachedCall_of_absent {π ν κV β : Type} [LinearOrder ν]
    (env : KeyEnv π ν κV) (fname : String)
    (f : π → List (ν × κV) → Option β) (ttl? : Option ℚ) (now : ℚ)
    (args : π) (kwargs : List (ν × κV)) {s : CacheState String (Option β)}
    (hk : lookup (generate_cache_key env fname args kwargs) s.cache = none)
    (hm : 1 ≤ s.max_size) :
    ∃ s₂, cachedCall env fname f ttl? now args kwargs s
        = .ok (f args kwargs, s₂, true)
      ∧ lookup (generate_cache_key env fname args kwargs) s₂.cache
          = some (newEntry now (f args kwargs) ttl? s.default_ttl)
      ∧ s₂.max_size = s.max_size ∧ s₂.default_ttl = s.default_ttl := by
  have hget : get .noClient now (generate_cache_key env fname args kwargs) s
      = (none, { s with misses := s.misses + 1,
                        total_requests := s.total_requests + 1 }) := by
    rw [get_noClient_def]
    exact localGet_miss
      (s := { s with total_requests := s.total_requests + 1 }) hk now
  obtain ⟨c₀, ev, hset, -, -⟩ :=
    set_ok_of_max_pos
      (s := { s with misses := s.misses + 1,
                     total_requests := s.total_requests + 1 })
      (k := generate_cache_key env fname args kwargs) hm
      .noClient now (f args kwargs) ttl?
  have hcc : cachedCall env fname f ttl? now args kwargs s
      = match set .noClient now (generate_cache_key env fname args kwargs)
            (f args kwargs) ttl?
            { s with misses := s.misses + 1,
                     total_requests := s.total_requests + 1 } with
        | .ok s₂ => .ok (f args kwargs, s₂, true)
        | .error e => .error e := by
    unfold cachedCall
    rw [hget]
    rfl
  rw [hset] at hcc
  refine ⟨_, hcc, ?_, ?_, ?_⟩
  · exact lookup_after_set
      (s := { s with misses := s.misses + 1,
                     total_requests := s.total_requests + 1 }) hset
  · exact (set_ok_fields
      (s := { s with misses := s.misses + 1,
                     total_requests := s.total_requests + 1 }) hset).1
  · exact (set_ok_fields
      (s := { s with misses := s.misses + 1,
                     total_requests := s.total_requests + 1 }) hset).2.1

theorem cachedCall_of_present {π ν κV β : Type} [LinearOrder ν]
    (env : KeyEnv π ν κV) (fname : String)
    (g : π → List (ν × κV) → Option β) (ttl? : Option ℚ) (now : ℚ)
    (args : π) (kwargs : List (ν × κV)) {s : CacheState String (Option β)}
    {e : Entry (Option β)} {b : β}
    (hk : lookup (generate_cache_key env fname args kwargs) s.cache = some e)
    (hb : e.value = some b) (hexp : e.expires_at > now) :
    cachedCall env fname g ttl? now args kwargs s
      = .ok (some b,
             { s with hits := s.hits + 1,
                      total_requests := s.total_requests + 1,
                      cache := removeKey
                          (generate_cache_key env fname args kwargs) s.cache
                        ++ [(generate_cache_key env fname args kwargs, e)] },
             false) := by
  have hget : get .noClient now (generate_cache_key env fname args kwargs) s
      = (some e.value,
         { s with hits := s.hits + 1,
                  total_requests := s.total_requests + 1,
                  cache := removeKey
                      (generate_cache_key env fname args kwargs) s.cache
                    ++ [(generate_cache_key env fname args kwargs, e)] }) := by
    rw [get_noClient_def]
    exact localGet_hit
      (s := { s with total_requests := s.total_requests + 1 }) hk hexp
  unfold cachedCall
  rw [hget, hb]
  rfl

theorem callTwice_eq {π ν κV β : Type} [LinearOrder ν]
    {env : KeyEnv π ν κV} {fname : String}
    {f g : π → List (ν × κV) → Option β} {ttl? : Option ℚ} {now₁ now₂ : ℚ}
    {args : π} {kw₁ kw₂ : List (ν × κV)}
    {s s₁ s₂ : CacheState String (Option β)} {v₁ v₂ : Option β}
    {b₁ b₂ : Bool}
    (h₁ : cachedCall env fname f ttl? now₁ args kw₁ s = .ok (v₁, s₁, b₁))
    (h₂ : cachedCall env fname g ttl? now₂ args kw₂ s₁ = .ok (v₂, s₂, b₂)) :
    callTwice env fname f g ttl? now₁ now₂ args kw₁ kw₂ s
      = .ok ((v₁, b₁), (v₂, b₂), s₂) := by
  unfold callTwice
  rw [h₁]
  dsimp only
  rw [h₂]

/-- A present but unexpired entry whose stored value is Python `None` is
treated as a miss by the wrapper: the function is invoked again. -/
theorem cachedCall_of_present_none {π ν κV β : Type} [LinearOrder ν]
    (env : KeyEnv π ν κV) (fname : String)
    (f : π → List (ν × κV) → Option β) (ttl? : Option ℚ) (now : ℚ)
    (args : π) (kwargs : List (ν × κV)) {s : CacheState String (Option β)}
    {e : Entry (Option β)}
    (hk : lookup (generate_cache_key env fname args kwargs) s.cache = some e)
    (hv : e.value = none) (hexp : e.expires_at > now)
    (hm : 1 ≤ s.max_size) :
    ∃ s₂, cachedCall env fname f ttl? now args kwargs s
        = .ok (f args kwargs, s₂, true) := by
  have hget : get .noClient now (generate_cache_key env fname args kwargs) s
      = (some e.value,
         { s with hits := s.hits + 1,
                  total_requests := s.total_requests + 1,
                  cache := removeKey
                      (generate_cache_key env fname args kwargs) s.cache
                    ++ [(generate_cache_key env fname args kwargs, e)] }) := by
    rw [get_noClient_def]
    exact localGet_hit
      (s := { s with total_requests := s.total_requests + 1 }) hk hexp
  obtain ⟨c₀, ev, hset, -, -⟩ :=
    set_ok_of_max_pos
      (s := { s with hits := s.hits + 1,
                     total_requests := s.total_requests + 1,
                     cache := removeKey
                         (generate_cache_key env fname args kwargs) s.cache
                       ++ [(generate_cache_key env fname args kwargs, e)] })
      (k := generate_cache_key env fname args kwargs) hm
      .noClient now (f args kwargs) ttl?
  have hcc : cachedCall env fname f ttl? now args kwargs s
      = match set .noClient now (generate_cache_key env fname args kwargs)
            (f args kwargs) ttl?
            { s with hits := s.hits + 1,
                     total_requests := s.total_requests + 1,
                     cache := removeKey
                         (generate_cache_key env fname args kwargs) s.cache
                       ++ [(generate_cache_key env fname args kwargs, e)] } with
        | .ok s₂ => .ok (f args kwargs, s₂, true)
        | .error e => .error e := by
    unfold cachedCall
    rw [hget, hv]
    rfl
  rw [hset] at hcc
  exact ⟨_, hcc⟩

/-- C5 counterexample: a decorated function that returns Python `None` is
invoked on BOTH of two identical calls — the stored `None` is
indistinguishable from a miss (`if cached_value is not None`), refuting
"exactly one underlying invocation of f" for every function. -/
theorem C5_counterexample :
    invokedFlags (callTwice okKeyEnv "f" alwaysNoneFn alwaysNoneFn none
      0 0 1 [] [] (initState 10 3600)) = some (true, true) := by
  obtain ⟨s₂, hc₁, hlk₂, hms₂, hdt₂⟩ :=
    cachedCall_of_absent okKeyEnv "f" alwaysNoneFn none 0 1 []
      (s := initState 10 3600) (by rfl) (by decide)
  obtain ⟨s₃, hc₂⟩ :=
    cachedCall_of_present_none okKeyEnv "f" alwaysNoneFn none 0 1 []
      (s := s₂) hlk₂ rfl
      (by simp only [newEntry, effTtl, initState]; norm_num)
      (by rw [hms₂]; decide)
  rw [callTwice_eq hc₁ hc₂]
  rfl

/-- C5 (amended): two calls of a decorated function with identical
arguments (keyword arguments in any order — Python passes them as a dict,
so a permuted keyword list denotes the same call) derive the same cache
key; and provided the function's result is not `None`, they result in
exactly one underlying invocation, both calls returning that result (with
the entry still live at the second call and the key initially absent).  A
`None` result is stored but cannot be distinguished from a miss, so the
second call would invoke the function again. -/
theorem C5_key_determinism_amended {π ν κV β : Type} [LinearOrder ν]
    (env : KeyEnv π ν κV) (fname : String)
    (f : π → List (ν × κV) → Option β) (ttl? : Option ℚ) (now₁ now₂ : ℚ)
    (args : π) (kw₁ kw₂ : List (ν × κV)) (s : CacheState String (Option β))
    {b : β}
    (hperm : kw₁.Perm kw₂) (hnd : (kw₁.map Prod.fst).Nodup)
    (hres : f args kw₁ = some b)
    (hk : lookup (generate_cache_key env fname args kw₁) s.cache = none)
    (hm : 1 ≤ s.max_size)
    (hexp : now₂ < now₁ + effTtl ttl? s.default_ttl) :
    generate_cache_key env fname args kw₂
        = generate_cache_key env fname args kw₁
    ∧ ∃ sf, callTwice env fname f f ttl? now₁ now₂ args kw₁ kw₂ s
        = .ok ((some b, true), (some b, false), sf) := by
  have hkeq : generate_cache_key env fname args kw₂
      = generate_cache_key env fname args kw₁ := by
    unfold generate_cache_key
    rw [sortedItems_perm_invariant hperm hnd]
  refine ⟨hkeq, ?_⟩
  obtain ⟨s₂, hcall₁, hlk₂, hms₂, hdt₂⟩ :=
    cachedCall_of_absent env fname f ttl? now₁ args kw₁ hk hm
  rw [hres] at hcall₁ hlk₂
  have hlk₂' : lookup (generate_cache_key env fname args kw₂) s₂.cache
      = some (newEntry now₁ (some b) ttl? s.default_ttl) := by
    rw [hkeq]; exact hlk₂
  have hcall₂ := cachedCall_of_present env fname f ttl? now₂ args kw₂
    (s := s₂) hlk₂' rfl (by simp only [newEntry]; linarith)
  exact ⟨_, callTwice_eq hcall₁ hcall₂⟩

/-- C10: cache keys are derived from the function's bare `__name__` only —
the wrapper calls `_generate_cache_key(func.__name__, args, kwargs)`, so
the key never depends on the function's module, qualified name or body.
Consequently, for ANY two functions `f` and `g` decorated under the same
`__name__`, after a call of `f`'s wrapper a call of `g`'s wrapper with
equal positional and keyword arguments is served `f`'s cached value from
the shared entry and `g` is never invoked. -/
theorem C10_name_only_keys {π ν κV β : Type} [LinearOrder ν]
    (env : KeyEnv π ν κV) (fname : String)
    (f g : π → List (ν × κV) → Option β) (ttl? : Option ℚ) (now₁ now₂ : ℚ)
    (args : π) (kw : List (ν × κV)) (s : CacheState String (Option β))
    {b : β}
    (hres : f args kw = some b)
    (hk : lookup (generate_cache_key env fname args kw) s.cache = none)
    (hm : 1 ≤ s.max_size)
    (hexp : now₂ < now₁ + effTtl ttl? s.default_ttl) :
    ∃ sf, callTwice env fname f g ttl? now₁ now₂ args kw kw s
        = .ok ((some b, true), (some b, false), sf) := by
  obtain ⟨s₂, hcall₁, hlk₂, hms₂, hdt₂⟩ :=
    cachedCall_of_absent env fname f ttl? now₁ args kw hk hm
  rw [hres] at hcall₁ hlk₂
  have hcall₂ := cachedCall_of_present env fname g ttl? now₂ args kw
    (s := s₂) hlk₂ rfl (by simp only [newEntry]; linarith)
  exact ⟨_, callTwice_eq hcall₁ hcall₂⟩

/-- C5 witness: two calls with the same kwargs in different orders compute
the same key; the function runs once and both calls return `some 7`. -/
theorem C5_witness :
    ([((1 : ℕ), (10 : ℕ)), (2, 20)] : List (ℕ × ℕ)).Perm [(2, 20), (1, 10)]
    ∧ (([((1 : ℕ), (10 : ℕ)), (2, 20)] : List (ℕ × ℕ)).map Prod.fst).Nodup
    ∧ constSevenFn 5 [(1, 10), (2, 20)] = some 7
    ∧ lookup (generate_cache_key okKeyEnv "calc" 5 [(1, 10), (2, 20)])
        (initState 10 3600 : CacheState String (Option ℕ)).cache = none
    ∧ 1 ≤ (initState 10 3600 : CacheState String (Option ℕ)).max_size
    ∧ ((0 : ℚ) < 0 + effTtl none
        (initState 10 3600 : CacheState String (Option ℕ)).default_ttl)
    ∧ (generate_cache_key okKeyEnv "calc" 5 [(2, 20), (1, 10)]
        = generate_cache_key okKeyEnv "calc" 5 [(1, 10), (2, 20)]
       ∧ ∃ sf, callTwice okKeyEnv "calc" constSevenFn constSevenFn none 0 0 5
           [(1, 10), (2, 20)] [(2, 20), (1, 10)] (initState 10 3600)
           = .ok ((some 7, true), (some 7, false), sf)) :=
  ⟨by decide, by decide, rfl, rfl, by decide,
   by simp only [effTtl, initState, zero_add]; decide,
   C5_key_determinism_amended okKeyEnv "calc" constSevenFn none 0 0 5
     [(1, 10), (2, 20)] [(2, 20), (1, 10)] (initState 10 3600)
     (by decide) (by decide) rfl rfl (by decide)
     (by simp only [effTtl, initState, zero_add]; decide)⟩

/-- C10 witness: `constNinetyNineFn`, decorated under the same name as
`constSevenFn`, is served `constSevenFn`'s cached 7 and never invoked. -/
theorem C10_witness :
    constSevenFn 5 [] = some 7
    ∧ lookup (generate_cache_key okKeyEnv "load" 5 [])
        (initState 10 3600 : CacheState String (Option ℕ)).cache = none
    ∧ 1 ≤ (initState 10 3600 : CacheState String (Option ℕ)).max_size
    ∧ ((0 : ℚ) < 0 + effTtl none
        (initState 10 3600 : CacheState String (Option ℕ)).default_ttl)
    ∧ ∃ sf, callTwice okKeyEnv "load" constSevenFn constNinetyNineFn none
        0 0 5 [] [] (initState 10 3600)
        = .ok ((some 7, true), (some 7, false), sf) :=
  ⟨rfl, rfl, by decide,
   by simp only [effTtl, initState, zero_add]; decide,
   C10_name_only_keys okKeyEnv "load" constSevenFn constNinetyNineFn none
     0 0 5 [] (initState 10 3600) rfl rfl (by decide)
     (by simp only [effTtl, initState, zero_add]; decide)⟩

/-! ### LRU machinery for C1 -/

theorem keysOf_tail (c : List (K × Entry α)) :
    keysOf c.tail = (keysOf c).tail := by
  cases c <;> rfl

theorem length_removeKey_lt {k : K} {c : List (K × Entry α)}
    (h : k ∈ keysOf c) : (removeKey k c).length < c.length := by
  induction c with
  | nil => simp [keysOf] at h
  | cons p c ih =>
      by_cases hp : p.1 = k
      · have h1 : removeKey k (p :: c) = removeKey k c := by
          simp [removeKey, List.filter_cons, hp]
        rw [h1, List.length_cons]
        exact Nat.lt_succ_of_le (length_removeKey_le k c)
      · have h1 : removeKey k (p :: c) = p :: removeKey k c := by
          simp [removeKey, List.filter_cons, hp]
        have h2 : k ∈ keysOf c := by
          have h' : k = p.1 ∨ k ∈ keysOf c := by simpa using h
          rcases h' with h' | h'
          · exact absurd h'.symm hp
          · exact h'
        rw [h1, List.length_cons, List.length_cons]
        exact Nat.succ_lt_succ (ih h2)

/-- A successful `set` transforms the store's key sequence exactly as
`cacheKeysStep` describes. -/
theorem keys_set {k : K} {s s' : CacheState K α} {r : RemoteWriteOutcome}
    {now : ℚ} {v : α} {ttl? : Option ℚ}
    (h : set r now k v ttl? s = .ok s') :
    keysOf s'.cache = cacheKeysStep s.max_size (keysOf s.cache) k := by
  have hKF : ((keysOf s.cache).filter (fun x => ¬ x = k))
      = keysOf (removeKey k s.cache) := (keysOf_removeKey k s.cache).symm
  have hlenKF : ((keysOf s.cache).filter (fun x => ¬ x = k)).length
      = (removeKey k s.cache).length := by
    rw [hKF, keysOf_length]
  by_cases hfull : ((removeKey k s.cache).length : ℤ) ≥ s.max_size
  · cases hc : removeKey k s.cache with
    | nil =>
        rw [hc] at hfull
        have hms : s.max_size ≤ 0 := by simpa using hfull
        rw [set_eq_error hc hms r now v ttl?] at h
        exact absurd h (by simp)
    | cons p rest =>
        rw [hc] at hfull
        rw [set_eq_ok_evict hc hfull r now v ttl?] at h
        simp only [Except.ok.injEq] at h
        subst h
        unfold cacheKeysStep
        rw [if_pos (by rw [hlenKF]; exact_mod_cast by rw [hc]; exact_mod_cast hfull)]
        rw [hKF, hc]
        simp [keysOf]
  · rw [set_eq_ok_noevict hfull r now v ttl?] at h
    simp only [Except.ok.injEq] at h
    subst h
    unfold cacheKeysStep
    rw [if_neg (by rw [hlenKF]; exact hfull)]
    rw [hKF]
    simp [keysOf]

theorem runOp_bound {s : CacheState K α} (op : Op K α)
    (h : (s.cache.length : ℤ) ≤ s.max_size) :
    ((runOp s op).cache.length : ℤ) ≤ (runOp s op).max_size
    ∧ (runOp s op).max_size = s.max_size := by
  cases op with
  | get now k =>
      have hbound : ((get .noClient now k s).2.cache.length : ℤ) ≤ s.max_size
          ∧ (get .noClient now k s).2.max_size = s.max_size := by
        rw [get_noClient_def]
        cases hl : lookup k s.cache with
        | none =>
            rw [localGet_miss
              (s := { s with total_requests := s.total_requests + 1 }) hl now]
            exact ⟨h, rfl⟩
        | some e =>
            have hmem : k ∈ keysOf s.cache := by
              by_contra hk
              rw [lookup_eq_none_iff.mpr hk] at hl
              exact absurd hl (by simp)
            by_cases hexp : e.expires_at > now
            · rw [localGet_hit
                (s := { s with total_requests := s.total_requests + 1 })
                hl hexp]
              refine ⟨?_, rfl⟩
              have := length_removeKey_lt (c := s.cache) hmem
              simp only [List.length_append, List.length_cons,
                List.length_nil]
              push_cast
              omega
            · rw [localGet_expired
                (s := { s with total_requests := s.total_requests + 1 })
                hl hexp]
              refine ⟨?_, rfl⟩
              have := length_removeKey_le k s.cache
              push_cast
              omega
      constructor
      · show ((get .noClient now k s).2.cache.length : ℤ)
            ≤ (get .noClient now k s).2.max_size
        rw [hbound.2]
        exact hbound.1
      · exact hbound.2
  | set now k v t =>
      cases hs : set .noClient now k v t s with
      | error e => simp [runOp, hs, h]
      | ok s' =>
          have hms : s'.max_size = s.max_size := (set_ok_fields hs).1
          have hlen : (s'.cache.length : ℤ) ≤ s.max_size := by
            by_cases hfull :
                ((removeKey k s.cache).length : ℤ) ≥ s.max_size
            · cases hc : removeKey k s.cache with
              | nil =>
                  rw [hc] at hfull
                  have hms0 : s.max_size ≤ 0 := by simpa using hfull
                  rw [set_eq_error hc hms0 .noClient now v t] at hs
                  exact absurd hs (by simp)
              | cons p rest =>
                  rw [hc] at hfull
                  rw [set_eq_ok_evict hc hfull .noClient now v t] at hs
                  simp only [Except.ok.injEq] at hs
                  subst hs
                  have h1 : (removeKey k s.cache).length ≤ s.cache.length :=
                    length_removeKey_le k s.cache
                  rw [hc] at h1
                  simp only [List.length_append, List.length_cons,
                    List.length_nil] at h1 ⊢
                  push_cast
                  omega
            · rw [set_eq_ok_noevict hfull .noClient now v t] at hs
              simp only [Except.ok.injEq] at hs
              subst hs
              simp only [List.length_append, List.length_cons,
                List.length_nil]
              push_cast
              omega
          refine ⟨?_, by simp [runOp, hs, hms]⟩
          have hrun : runOp s (Op.set now k v t) = s' := by simp [runOp, hs]
          rw [hrun, hms]
          exact hlen

theorem runOps_bound (ops : List (Op K α)) :
    ∀ s : CacheState K α, (s.cache.length : ℤ) ≤ s.max_size →
      ((runOps s ops).cache.length : ℤ) ≤ (runOps s ops).max_size
      ∧ (runOps s ops).max_size = s.max_size := by
  induction ops with
  | nil => intro s h; exact ⟨h, rfl⟩
  | cons op ops ih =>
      intro s h
      obtain ⟨h1, h2⟩ := runOp_bound op h
      obtain ⟨ih1, ih2⟩ := ih (runOp s op) h1
      constructor
      · show ((runOps (runOp s op) ops).cache.length : ℤ)
            ≤ (runOps (runOp s op) ops).max_size
        exact ih1
      · show (runOps (runOp s op) ops).max_size = s.max_size
        rw [ih2, h2]

theorem keysInv_step {m : ℕ} (hm : 1 ≤ m) {R C : List K}
    (h : KeysInv m R C) (k : K) :
    KeysInv m (touch R k) (cacheKeysStep (m : ℤ) C k) := by
  obtain ⟨hnd, A, hRA, hlen⟩ := h
  have hCsub : C.Sublist R := hRA ▸ List.sublist_append_right A C
  have hndC : C.Nodup := hnd.sublist hCsub
  have hfsplit : R.filter (fun x => ¬ x = k)
      = A.filter (fun x => ¬ x = k) ++ C.filter (fun x => ¬ x = k) := by
    rw [hRA, List.filter_append]
  have hknotin : k ∉ R.filter (fun x => ¬ x = k) := by
    intro hkin
    have := (List.mem_filter.mp hkin).2
    simp at this
  have hndR' : (touch R k).Nodup := by
    unfold touch
    refine (hnd.filter _).append (List.nodup_singleton k) ?_
    intro a ha hb
    rw [List.mem_singleton] at hb
    subst hb
    exact hknotin ha
  have hCf_le : (C.filter (fun x => ¬ x = k)).length ≤ C.length :=
    List.length_filter_le _ C
  have hCf_ge : C.length ≤ (C.filter (fun x => ¬ x = k)).length + 1 := by
    by_cases hkC : k ∈ C
    · obtain ⟨X, Y, hXY⟩ := List.append_of_mem hkC
      subst hXY
      obtain ⟨hndX, hndkY, hdisj⟩ := List.nodup_append.mp hndC
      have hkX : k ∉ X := fun hkX => (hdisj hkX) (List.mem_cons_self k Y)
      have hkY : k ∉ Y := (List.nodup_cons.mp hndkY).1
      have hX : X.filter (fun x => ¬ x = k) = X := by
        apply List.filter_eq_self.mpr
        intro a ha
        simp only [decide_eq_true_eq]
        exact fun he => hkX (he ▸ ha)
      have hY : Y.filter (fun x => ¬ x = k) = Y := by
        apply List.filter_eq_self.mpr
        intro a ha
        simp only [decide_eq_true_eq]
        exact fun he => hkY (he ▸ ha)
      have hsplit2 : (X ++ k :: Y).filter (fun x => ¬ x = k) = X ++ Y := by
        rw [List.filter_append, List.filter_cons_of_neg (by simp), hX, hY]
      rw [hsplit2]
      simp only [List.length_append, List.length_cons]
      omega
    · have hCeq : C.filter (fun x => ¬ x = k) = C := by
        apply List.filter_eq_self.mpr
        intro a ha
        simp only [decide_eq_true_eq]
        exact fun he => hkC (he ▸ ha)
      rw [hCeq]
      omega
  have hAf_le : (A.filter (fun x => ¬ x = k)).length ≤ A.length :=
    List.length_filter_le _ A
  have hRlen : R.length = A.length + C.length := by
    rw [hRA, List.length_append]
  have hCmin : C.length = min m R.length := hlen
  by_cases hcond : (((C.filter (fun x => ¬ x = k)).length : ℤ) ≥ (m : ℤ))
  · have hcondN : m ≤ (C.filter (fun x => ¬ x = k)).length := by
      exact_mod_cast hcond
    have hCm : C.length ≤ m := by
      rw [hCmin]; exact min_le_left _ _
    have hCfm : (C.filter (fun x => ¬ x = k)).length = m :=
      le_antisymm (hCf_le.trans hCm) hcondN
    cases hCf : C.filter (fun x => ¬ x = k) with
    | nil =>
        rw [hCf] at hCfm
        simp at hCfm
        omega
    | cons c₀ ct =>
        refine ⟨hndR', A.filter (fun x => ¬ x = k) ++ [c₀], ?_, ?_⟩
        · unfold touch cacheKeysStep
          rw [if_pos hcond, hfsplit, hCf]
          simp
        · unfold touch cacheKeysStep
          rw [if_pos hcond, hfsplit, hCf]
          rw [hCf] at hCfm
          simp only [List.length_append, List.length_cons, List.length_nil,
            List.tail_cons, List.length_tail] at hCfm ⊢
          omega
  · have hcondN : (C.filter (fun x => ¬ x = k)).length < m := by
      rw [ge_iff_le, not_le] at hcond
      exact_mod_cast hcond
    refine ⟨hndR', A.filter (fun x => ¬ x = k), ?_, ?_⟩
    · unfold touch cacheKeysStep
      rw [if_neg hcond, hfsplit, List.append_assoc]
    · unfold touch cacheKeysStep
      rw [if_neg hcond, hfsplit]
      simp only [List.length_append, List.length_cons, List.length_nil]
      omega

theorem keysInv_lastN {m : ℕ} {R C : List K} (h : KeysInv m R C) :
    C = lastN m R := by
  obtain ⟨-, A, hRA, hlen⟩ := h
  subst hRA
  unfold lastN
  simp only [List.length_append] at hlen ⊢
  by_cases hc : m ≤ A.length + C.length
  · have hd : A.length + C.length - m = A.length := by omega
    rw [hd, List.drop_left]
  · have hA : A.length = 0 := by omega
    have hA' : A = [] := List.length_eq_zero.mp hA
    subst hA'
    have hd : ([] : List K).length + C.length - m = 0 := by
      simp only [List.length_nil]
      omega
    rw [hd, List.drop_zero]
    simp

theorem runOps_sets_inv {m : ℕ} (hm : 1 ≤ m) (ops : List (Op K α)) :
    ∀ (s : CacheState K α) (R : List K),
      s.max_size = (m : ℤ) →
      KeysInv m R (keysOf s.cache) →
      (∀ op ∈ ops, op.isSet = true) →
      KeysInv m (ops.foldl (fun r op => touch r op.key) R)
        (keysOf ((runOps s ops).cache)) := by
  induction ops with
  | nil => intro s R hms hinv hsets; exact hinv
  | cons op ops ih =>
      intro s R hms hinv hsets
      cases op with
      | get now k =>
          have := hsets _ (List.mem_cons_self _ _)
          simp [Op.isSet] at this
      | set now k v t =>
          obtain ⟨s', hset⟩ : ∃ s', set .noClient now k v t s = .ok s' := by
            obtain ⟨c₀, ev, hs, -, -⟩ :=
              set_ok_of_max_pos (s := s) (k := k)
                (by rw [hms]; exact_mod_cast hm) .noClient now v t
            exact ⟨_, hs⟩
          have hkeys := keys_set hset
          rw [hms] at hkeys
          have hinv' := keysInv_step hm hinv k
          rw [← hkeys] at hinv'
          have hms' : s'.max_size = (m : ℤ) :=
            (set_ok_fields hset).1.trans hms
          have hrun : runOps s (Op.set now k v t :: ops) = runOps s' ops := by
            simp [runOps, runOp, hset]
          rw [hrun, List.foldl_cons]
          exact ih s' (touch R k) hms' hinv'
            (fun op hop => hsets op (List.mem_cons_of_mem _ hop))

/-- C1: LRU bounded-capacity behaviour.  (a) Along every script of `get`
and `set` calls from a fresh manager with `max_size ≥ 1`, the store never
holds more than `max_size` entries.  (b) When a `set` of a new key finds
the store exactly full, the single least-recently-touched entry (the front
of the recency order, which every hit and every set refreshes by moving
the key to the back) is evicted strictly before the insert lands: the
eviction counter is incremented, the store between eviction and insertion
holds `max_size - 1` entries, and it is exactly full again afterwards.
(c) After any script consisting of `set` calls, the entries remaining are
exactly the `max_size` most-recently-touched keys, in recency order. -/
theorem C1_lru_bounded_eviction :
    (∀ (m : ℤ) (d : ℚ), 1 ≤ m → ∀ ops : List (Op K α),
       ((runOps (initState m d : CacheState K α) ops).cache.length : ℤ) ≤ m)
    ∧ (∀ (s : CacheState K α) (k : K) (v : α) (t : Option ℚ) (now : ℚ)
         (r : RemoteWriteOutcome),
        1 ≤ s.max_size → (s.cache.length : ℤ) = s.max_size →
        lookup k s.cache = none →
        ∃ p rest, s.cache = p :: rest
          ∧ set r now k v t s
              = .ok { s with
                        cache := rest
                          ++ [(k, newEntry now v t s.default_ttl)],
                        evictions := s.evictions + 1 }
          ∧ ((rest.length : ℤ) < s.max_size)
          ∧ (((rest ++ [(k, newEntry now v t s.default_ttl)]).length : ℤ)
              = s.max_size))
    ∧ (∀ (m : ℕ) (d : ℚ), 1 ≤ m → ∀ ops : List (Op K α),
        (∀ op ∈ ops, op.isSet = true) →
        keysOf ((runOps (initState (m : ℤ) d : CacheState K α) ops).cache)
          = lastN m (recentKeys ops)) := by
  refine ⟨?_, ?_, ?_⟩
  · intro m d hm ops
    have h0 : (((initState m d : CacheState K α).cache.length : ℤ))
        ≤ (initState m d : CacheState K α).max_size := by
      simp [initState]
      omega
    obtain ⟨h1, h2⟩ := runOps_bound ops (initState m d) h0
    rw [h2] at h1
    exact h1
  · intro s k v t now r hm hfull hnew
    have hrk : removeKey k s.cache = s.cache :=
      removeKey_of_not_mem (lookup_eq_none_iff.mp hnew)
    cases hc : s.cache with
    | nil =>
        rw [hc] at hfull
        simp at hfull
        omega
    | cons p rest =>
        have hrk' : removeKey k s.cache = p :: rest := by rw [hrk, hc]
        have hfull' : (((p :: rest) : List (K × Entry α)).length : ℤ)
            ≥ s.max_size := by rw [← hc, hfull]
        refine ⟨p, rest, rfl, set_eq_ok_evict hrk' hfull' r now v t, ?_, ?_⟩
        · rw [hc] at hfull
          simp only [List.length_cons] at hfull
          push_cast at hfull ⊢
          omega
        · rw [hc] at hfull
          simp only [List.length_cons] at hfull ⊢
          push_cast at hfull ⊢
          simp
          omega
  · intro m d hm ops hsets
    have hinv0 : KeysInv m []
        (keysOf ((initState (m : ℤ) d : CacheState K α).cache)) := by
      refine ⟨List.nodup_nil, [], by simp [initState, keysOf], ?_⟩
      simp [initState, keysOf]
    have := runOps_sets_inv hm ops (initState (m : ℤ) d) []
      (by simp [initState]) hinv0 hsets
    exact keysInv_lastN this

/-- C1 witness: on two-slot managers — three sets leave at most (in fact
exactly) two entries; a set of the fresh key `"c"` on a full store evicts
the front entry `"a"` and increments the eviction counter; and the keys
remaining after the scripted sets are the two most recently touched. -/
theorem C1_witness :
    ((1 : ℤ) ≤ 2)
    ∧ (((runOps (initState 2 60 : CacheState ℕ ℕ)
          [Op.set 0 1 10 none, Op.set 0 2 20 none,
           Op.set 0 3 30 none]).cache.length : ℤ) ≤ 2)
    ∧ (1 ≤ lruFullState.max_size
       ∧ ((lruFullState.cache.length : ℤ) = lruFullState.max_size)
       ∧ lookup "c" lruFullState.cache = none
       ∧ ∃ p rest, lruFullState.cache = p :: rest
           ∧ set .noClient 0 "c" (3 : ℕ) none lruFullState
               = .ok { lruFullState with
                         cache := rest ++ [("c", newEntry 0 3 none
                           lruFullState.default_ttl)],
                         evictions := lruFullState.evictions + 1 }
           ∧ ((rest.length : ℤ) < lruFullState.max_size)
           ∧ (((rest ++ [("c", newEntry 0 3 none
                 lruFullState.default_ttl)]).length : ℤ)
               = lruFullState.max_size))
    ∧ ((1 : ℕ) ≤ 2
       ∧ keysOf ((runOps (initState ((2 : ℕ) : ℤ) 60 : CacheState ℕ ℕ)
            [Op.set 0 1 10 none, Op.set 0 2 20 none,
             Op.set 0 3 30 none]).cache)
           = lastN 2 (recentKeys [Op.set 0 1 10 none, Op.set 0 2 20 none,
               Op.set 0 3 30 none])) :=
  ⟨by decide,
   (C1_lru_bounded_eviction (K := ℕ) (α := ℕ)).1 2 60 (by decide)
     [Op.set 0 1 10 none, Op.set 0 2 20 none, Op.set 0 3 30 none],
   ⟨by decide, by decide, by decide,
    (C1_lru_bounded_eviction (K := String) (α := ℕ)).2.1 lruFullState "c"
      (3 : ℕ) none 0 .noClient (by decide) (by decide) (by decide)⟩,
   ⟨by decide,
    (C1_lru_bounded_eviction (K := ℕ) (α := ℕ)).2.2 2 60 (by decide)
      [Op.set 0 1 10 none, Op.set 0 2 20 none, Op.set 0 3 30 none]
      (by decide)⟩⟩

end EstruturaIAGen
